import Mathlib

/-!
Verification of the trip itinerary PDF generator (`src/app/pdf_generator.py`).

The file gives a shallow embedding of the text-processing pipeline of the
generator: the day-chunk splitter (the lookahead `re.split` over the plan
text), the per-line section state machine `parse_section`, and the
render-block ("story") construction of `generate_trip_pdf` together with the
overview table of `create_overview_table`.  Strings are modelled as lists of
characters; each Lean definition mirrors the corresponding Python code.
Styling attributes (fonts, colors, geometry) and the actual PDF rendering are
outside the modelled surface: blocks record their text content, style name
and the numeric parameters that the code passes.
-/

namespace TripAI

/-- `str.strip()` of Python, restricted to the ASCII whitespace characters
that can actually occur here (space, tab, carriage return, newline). -/
def pyStrip (cs : List Char) : List Char :=
  ((cs.dropWhile Char.isWhitespace).reverse.dropWhile Char.isWhitespace).reverse

/-- `content.split(chr(10))` of Python: split at every newline, keeping empty
pieces; the result is always non-empty. -/
def splitOnNL : List Char → List (List Char)
  | [] => [[]]
  | c :: rest =>
    if c = '\n' then [] :: splitOnNL rest
    else
      match splitOnNL rest with
      | [] => [[c]]
      | l :: ls => (c :: l) :: ls

/-- Python `.join` with a newline separator. -/
def joinNL : List (List Char) → List Char
  | [] => []
  | l :: ls =>
    match ls with
    | [] => l
    | _ :: _ => l ++ '\n' :: joinNL ls

/-- Python `.join` with a single space separator. -/
def joinSpace : List (List Char) → List Char
  | [] => []
  | l :: ls =>
    match ls with
    | [] => l
    | _ :: _ => l ++ ' ' :: joinSpace ls

/-- Helper for `wordsOf`: accumulate the current word (reversed). -/
def wordsAux : List Char → List Char → List (List Char)
  | [], w => if w = [] then [] else [w.reverse]
  | c :: rest, w =>
    if c.isWhitespace then
      if w = [] then wordsAux rest [] else w.reverse :: wordsAux rest []
    else wordsAux rest (c :: w)

/-- Split into maximal whitespace-free words, dropping empty pieces. -/
def wordsOf (cs : List Char) : List (List Char) :=
  wordsAux cs []

/-- Modelled from the spec: the source imports `clean_text` from a `utils`
module that is not among the provided sources.  Per the spec it is "a
text-cleaning utility: given a raw string, returns a normalized string (trim,
collapse internal whitespace)", applied to every bullet point before storage.
We model it as: split into whitespace-separated words and rejoin them with
single spaces. -/
def cleanText (cs : List Char) : List Char :=
  joinSpace (wordsOf cs)

/-- One or more decimal digits followed by a colon, continuing `restColon`
after the first (mandatory) digit. -/
def restColon : List Char → Bool
  | [] => false
  | c :: rest => if c.isDigit then restColon rest else decide (c = ':')

/-- `\d+:` of the day-marker regex: at least one digit, then a colon. -/
def digitsColon : List Char → Bool
  | [] => false
  | c :: rest => c.isDigit && restColon rest

/-- Does the text start with a day marker, i.e. does the regex
`Day \d+:|DAY \d+:` match at this position (the anchored `re.match` of the
code, and the position test of the lookahead `re.split`)? -/
def markerAt : List Char → Bool
  | c1 :: c2 :: c3 :: c4 :: rest =>
    if ((c1 = 'D' ∧ c2 = 'a' ∧ c3 = 'y') ∨ (c1 = 'D' ∧ c2 = 'A' ∧ c3 = 'Y')) ∧ c4 = ' '
    then digitsColon rest
    else false
  | _ => false

/-- Worker for `daySplit`: scan the text, cutting a new piece before every
position at which the day-marker regex matches; `acc` holds the current piece
reversed. -/
def daySplitGo : List Char → List Char → List (List Char)
  | [], acc => [acc.reverse]
  | c :: rest, acc =>
    if markerAt (c :: rest) then acc.reverse :: daySplitGo rest [c]
    else daySplitGo rest (c :: acc)

/-- The lookahead split
`re.split(r'(?=Day \d+:|DAY \d+:)', trip_plan)` of `generate_trip_pdf`:
a zero-width boundary before every occurrence of `Day <digits>:` or
`DAY <digits>:` (anywhere in the text, these two exact capitalizations). -/
def daySplit (cs : List Char) : List (List Char) :=
  daySplitGo cs []

/-- A parsed section of one day: header line, bullet points, info text
(the dict `{header, points, info}` of `parse_section`). -/
structure Section where
  header : List Char
  points : List (List Char)
  info : List Char
deriving DecidableEq, Repr

/-- The running state of the `parse_section` loop: flushed sections, the
current section under construction, and the pending info-line buffer. -/
structure PState where
  sections : List Section
  cur : Section
  buf : List (List Char)
deriving DecidableEq, Repr

/-- Header test of `parse_section`:
`':' in line and not any(char.isdigit() for char in line.split(':')[0])`. -/
def isHeaderLine (line : List Char) : Bool :=
  line.contains ':' && !((line.takeWhile (fun c => c ≠ ':')).any Char.isDigit)

/-- Bullet test of `parse_section`: `line.startswith(('•', '-', '*'))`. -/
def isBulletStart : List Char → Bool
  | [] => false
  | c :: _ => c = '•' || c = '-' || c = '*'

/-- `line.lstrip('•-* ')` of Python: drop every leading character drawn from
the set of the three bullet markers and the space. -/
def lstripBullet (cs : List Char) : List Char :=
  cs.dropWhile (fun c => c = '•' || c = '-' || c = '*' || c = ' ')

/-- The guarded append of `parse_section`: the current section is flushed to
the output list only when it has a non-empty header or non-empty points. -/
def flushQual (secs : List Section) (cur : Section) : List Section :=
  if cur.header ≠ [] ∨ cur.points ≠ [] then secs ++ [cur] else secs

/-- One iteration of the `for line in lines` loop of `parse_section`. -/
def stepLine (st : PState) (raw : List Char) : PState :=
  let line := pyStrip raw
  if line = [] then
    if st.buf ≠ [] then ⟨st.sections, ⟨st.cur.header, st.cur.points, joinSpace st.buf⟩, []⟩
    else st
  else if isHeaderLine line then
    ⟨flushQual st.sections st.cur, ⟨line, [], []⟩, []⟩
  else if isBulletStart line then
    let point := cleanText (lstripBullet line)
    if point ≠ [] then ⟨st.sections, ⟨st.cur.header, st.cur.points ++ [point], st.cur.info⟩, st.buf⟩
    else st
  else ⟨st.sections, st.cur, st.buf ++ [line]⟩

/-- `parse_section(content)`: run the line loop from the empty state, then
perform the final info-buffer join and the final qualified flush. -/
def parseSection (content : List Char) : List Section :=
  let st := (splitOnNL content).foldl stepLine ⟨[], ⟨[], [], []⟩, []⟩
  let st2 : PState :=
    if st.buf ≠ [] then ⟨st.sections, ⟨st.cur.header, st.cur.points, joinSpace st.buf⟩, []⟩
    else st
  flushQual st2.sections st2.cur

/-- One day of the itinerary: the day-header label and its parsed sections. -/
structure DayBlock where
  header : List Char
  sections : List Section
deriving DecidableEq, Repr

/-- The body of the day loop of `generate_trip_pdf`, restricted to the
segmentation data: a blank chunk is skipped; a chunk whose start matches the
day-marker regex contributes its first line as header and the remaining lines
as body; any other chunk gets the fallback header and is its own body. -/
def mkDayBlock (day : List Char) : Option DayBlock :=
  if pyStrip day = [] then none
  else if markerAt day then
    some ⟨(splitOnNL day).headD [], parseSection (joinNL (splitOnNL day).tail)⟩
  else some ⟨("Trip Overview").data, parseSection day⟩

/-- The segmentation pass of `generate_trip_pdf`: split the plan text at day
markers and turn each non-blank chunk into a `DayBlock`. -/
def segmentTrip (tripPlan : List Char) : List DayBlock :=
  (daySplit tripPlan).filterMap mkDayBlock

/-- Lines of the plan text that are day-marker lines, i.e. that begin with
`Day <digits>:` or `DAY <digits>:`.  This definition follows the words of the
claims ("plan text containing exactly N valid day-marker lines"), to be
compared with what the code does. -/
def markerLineCount (cs : List Char) : Nat :=
  ((splitOnNL cs).filter (fun l => markerAt l)).length

/-- A renderable output block of the story assembled by `generate_trip_pdf`:
a styled paragraph, the overview table, the thin separator rule (a one-cell
table in the code), or a spacer. -/
inductive Block where
  | para (text : List Char) (style : List Char)
  | ovTable (rows : List (List Char × List Char))
  | sepLine (width : Nat)
  | spacer (w h : Nat)
deriving DecidableEq, Repr

/-- The rows of `create_overview_table`.  Dates are modelled as integer day
ordinals; their textual rendering is the decimal rendering of the ordinal,
and date subtraction yields the difference of the ordinals in days. -/
def ovRows (startLoc dest : List Char) (startDate endDate : Int) :
    List (List Char × List Char) :=
  [ (("Trip Summary").data, []),
    (("Departure").data, startLoc),
    (("Destination").data, dest),
    (("Start Date").data, (toString startDate).data),
    (("End Date").data, (toString endDate).data),
    (("Duration").data, (toString (endDate - startDate + 1)).data ++ (" days").data) ]

/-- The story blocks of one parsed section inside the day loop. -/
def sectionStory (s : Section) : List Block :=
  (if s.header ≠ [] then [Block.para s.header (("SectionHeader").data)] else [])
  ++ (if s.info ≠ [] then [Block.para s.info (("InfoBox").data)] else [])
  ++ s.points.map (fun p => Block.para (("• ").data ++ p) (("BulletPoint").data))
  ++ [Block.spacer 1 8]

/-- The story blocks of one day: the day header paragraph, the section
blocks, and the trailing separator that `add_separator` appends. -/
def dayStory (b : DayBlock) : List Block :=
  (Block.para b.header (("DayHeader").data) :: (b.sections.map sectionStory).flatten)
  ++ [Block.sepLine 450, Block.spacer 1 10]

/-- The full story built by `generate_trip_pdf`: title, subtitle, overview
table, spacer, separator, then the day content. -/
def mkStory (tripPlan startLoc dest : List Char) (startDate endDate : Int) :
    List Block :=
  [ Block.para (("Travel Itinerary\n").data ++ startLoc ++ (" to ").data ++ dest)
      (("CustomTitle").data),
    Block.para (("Journey Dates: ").data ++ (toString startDate).data
        ++ (" - ").data ++ (toString endDate).data)
      (("CustomSubtitle").data),
    Block.ovTable (ovRows startLoc dest startDate endDate),
    Block.spacer 1 20,
    Block.sepLine 450,
    Block.spacer 1 10 ]
  ++ ((segmentTrip tripPlan).map dayStory).flatten

/-! ### Lemmas about the day-marker matcher -/

theorem restColon_append {xs : List Char} (h : restColon xs = true) (ys : List Char) :
    restColon (xs ++ ys) = true := by
  induction xs with
  | nil => simp [restColon] at h
  | cons c rest ih =>
    simp only [restColon, List.cons_append] at h ⊢
    split at h
    · next hd => simp [hd, ih h]
    · next hd => simp [hd, h]

theorem digitsColon_append {xs : List Char} (h : digitsColon xs = true) (ys : List Char) :
    digitsColon (xs ++ ys) = true := by
  cases xs with
  | nil => simp [digitsColon] at h
  | cons c rest =>
    simp only [digitsColon, List.cons_append, Bool.and_eq_true] at h ⊢
    exact ⟨h.1, restColon_append h.2 ys⟩

theorem markerAt_append {xs : List Char} (h : markerAt xs = true) (ys : List Char) :
    markerAt (xs ++ ys) = true := by
  match xs with
  | [] => simp [markerAt] at h
  | [c1] => simp [markerAt] at h
  | [c1, c2] => simp [markerAt] at h
  | [c1, c2, c3] => simp [markerAt] at h
  | c1 :: c2 :: c3 :: c4 :: rest =>
    simp only [markerAt, List.cons_append] at h ⊢
    split at h
    · next hc => simp only [hc, if_true]; exact digitsColon_append h ys
    · exact absurd h (by simp)

/-- The shape of a marker occurrence: the four fixed characters, then the
digits-colon tail. -/
theorem markerAt_shape {cs : List Char} (h : markerAt cs = true) :
    ∃ c2 c3 c4 rest, cs = 'D' :: c2 :: c3 :: c4 :: rest ∧
      (((c2 = 'a' ∧ c3 = 'y') ∨ (c2 = 'A' ∧ c3 = 'Y')) ∧ c4 = ' ') ∧
      digitsColon rest = true := by
  match cs with
  | [] => simp [markerAt] at h
  | [c1] => simp [markerAt] at h
  | [c1, c2] => simp [markerAt] at h
  | [c1, c2, c3] => simp [markerAt] at h
  | c1 :: c2 :: c3 :: c4 :: rest =>
    simp only [markerAt] at h
    split at h
    · next hc =>
      have hc1 : c1 = 'D' := by rcases hc.1 with ⟨h1, _⟩ | ⟨h1, _⟩ <;> exact h1
      subst hc1
      refine ⟨c2, c3, c4, rest, rfl, ⟨?_, hc.2⟩, h⟩
      rcases hc.1 with ⟨_, h2, h3⟩ | ⟨_, h2, h3⟩
      · exact Or.inl ⟨h2, h3⟩
      · exact Or.inr ⟨h2, h3⟩
    · simp at h

theorem markerAt_head {cs : List Char} (h : markerAt cs = true) :
    ∃ t, cs = 'D' :: t := by
  obtain ⟨c2, c3, c4, rest, hcs, _, _⟩ := markerAt_shape h
  exact ⟨c2 :: c3 :: c4 :: rest, hcs⟩

theorem restColon_cancel {xs bs : List Char}
    (h : restColon (xs ++ 'D' :: bs) = true) : restColon xs = true := by
  induction xs with
  | nil =>
    simp only [List.nil_append, restColon] at h
    rw [show ('D').isDigit = false from rfl] at h
    simp only [Bool.false_eq_true, if_false] at h
    exact absurd h (by decide)
  | cons c rest ih =>
    simp only [restColon, List.cons_append] at h ⊢
    split at h
    · next hd => simp [hd, ih h]
    · next hd => simp [hd, h]

theorem digitsColon_cancel {xs bs : List Char}
    (h : digitsColon (xs ++ 'D' :: bs) = true) : digitsColon xs = true := by
  cases xs with
  | nil =>
    simp only [List.nil_append, digitsColon, Bool.and_eq_true] at h
    exact absurd h.1 (by decide)
  | cons c rest =>
    simp only [digitsColon, List.cons_append, Bool.and_eq_true] at h ⊢
    exact ⟨h.1, restColon_cancel h.2⟩

/-- Two marker occurrences cannot overlap: when a marker matches both at the
start of `xs ++ ys` and at the start of (non-empty) `ys`, the whole first
marker lies inside `xs`. -/
theorem markerAt_cancel {xs ys : List Char} (hne : xs ≠ [])
    (hxy : markerAt (xs ++ ys) = true) (hy : markerAt ys = true) :
    markerAt xs = true := by
  obtain ⟨y2, y3, y4, yr, hys, _, _⟩ := markerAt_shape hy
  match xs with
  | [] => exact absurd rfl hne
  | [x1] =>
    obtain ⟨c2, c3, c4, rest, hcs, hcond, hd⟩ := markerAt_shape hxy
    rw [hys] at hcs
    simp only [List.cons_append, List.nil_append, List.cons.injEq] at hcs
    rcases hcond.1 with ⟨h2, _⟩ | ⟨h2, _⟩ <;>
      · rw [← hcs.2.1] at h2; exact absurd h2 (by decide)
  | [x1, x2] =>
    obtain ⟨c2, c3, c4, rest, hcs, hcond, hd⟩ := markerAt_shape hxy
    rw [hys] at hcs
    simp only [List.cons_append, List.nil_append, List.cons.injEq] at hcs
    rcases hcond.1 with ⟨_, h3⟩ | ⟨_, h3⟩ <;>
      · rw [← hcs.2.2.1] at h3; exact absurd h3 (by decide)
  | [x1, x2, x3] =>
    obtain ⟨c2, c3, c4, rest, hcs, hcond, hd⟩ := markerAt_shape hxy
    rw [hys] at hcs
    simp only [List.cons_append, List.nil_append, List.cons.injEq] at hcs
    have h4 := hcond.2
    rw [← hcs.2.2.2.1] at h4
    exact absurd h4 (by decide)
  | x1 :: x2 :: x3 :: x4 :: xs5 =>
    obtain ⟨c2, c3, c4, rest, hcs, hcond, hd⟩ := markerAt_shape hxy
    simp only [List.cons_append, List.cons.injEq] at hcs
    obtain ⟨e1, e2, e3, e4, e5⟩ := hcs
    rw [hys] at e5
    have hd5 : digitsColon xs5 = true := digitsColon_cancel (e5 ▸ hd)
    simp only [markerAt]
    rw [e1, e2, e3, e4]
    have hcond2 :
        (('D' = 'D' ∧ c2 = 'a' ∧ c3 = 'y') ∨ ('D' = 'D' ∧ c2 = 'A' ∧ c3 = 'Y')) ∧ c4 = ' ' := by
      rcases hcond with ⟨h23, h4⟩
      rcases h23 with h23 | h23
      · exact ⟨Or.inl ⟨rfl, h23⟩, h4⟩
      · exact ⟨Or.inr ⟨rfl, h23⟩, h4⟩
    rw [if_pos hcond2]
    exact hd5

/-! ### Structure of the lookahead split -/

theorem daySplitGo_ne_nil (cs : List Char) : ∀ acc : List Char, daySplitGo cs acc ≠ [] := by
  induction cs with
  | nil => intro acc; simp [daySplitGo]
  | cons c rest ih =>
    intro acc
    simp only [daySplitGo]
    split
    · simp
    · exact ih (c :: acc)

/-- The pieces of the split concatenate back to the input. -/
theorem daySplitGo_flatten (cs : List Char) : ∀ acc : List Char,
    (daySplitGo cs acc).flatten = acc.reverse ++ cs := by
  induction cs with
  | nil => intro acc; simp [daySplitGo]
  | cons c rest ih =>
    intro acc
    simp only [daySplitGo]
    split
    · simp [List.flatten_cons, ih [c]]
    · rw [ih (c :: acc)]; simp

/-- Once a piece has been started at a marker position, every piece the
remaining scan produces (the current one included) starts with a marker. -/
theorem daySplitGo_all_marker (cs : List Char) : ∀ acc : List Char, acc ≠ [] →
    markerAt (acc.reverse ++ cs) = true →
    ∀ p ∈ daySplitGo cs acc, markerAt p = true := by
  induction cs with
  | nil =>
    intro acc hne hm p hp
    simp only [daySplitGo, List.mem_singleton] at hp
    subst hp
    rwa [List.append_nil] at hm
  | cons c rest ih =>
    intro acc hne hm p hp
    simp only [daySplitGo] at hp
    split at hp
    · next hcut =>
      rcases List.mem_cons.mp hp with hp | hp
      · subst hp
        exact markerAt_cancel (by simpa using hne) hm hcut
      · exact ih [c] (by simp) (by simpa using hcut) p hp
    · next hcut =>
      refine ih (c :: acc) (by simp) ?_ p hp
      simpa [List.append_assoc] using hm

/-- Every piece after the first starts with a day marker. -/
theorem daySplit_tail_marker (cs : List Char) :
    ∀ p ∈ (daySplit cs).tail, markerAt p = true := by
  rw [daySplit]
  generalize hacc : ([] : List Char) = acc
  clear hacc
  induction cs generalizing acc with
  | nil => simp [daySplitGo]
  | cons c rest ih =>
    simp only [daySplitGo]
    split
    · next hcut =>
      intro p hp
      simp only [List.tail_cons] at hp
      exact daySplitGo_all_marker rest [c] (by simp) (by simpa using hcut) p hp
    · exact ih (c :: acc)

/-- The first piece of the split does not start with a marker. -/
theorem daySplit_head_not_marker (cs : List Char) :
    markerAt ((daySplit cs).headD []) = false := by
  cases hm : markerAt cs with
  | true =>
    obtain ⟨t, rfl⟩ := markerAt_head hm
    rw [daySplit, daySplitGo, if_pos hm]
    simp only [List.reverse_nil, List.headD_cons]
    rfl
  | false =>
    rcases hsplit : daySplit cs with _ | ⟨p0, ps⟩
    · exact absurd hsplit (daySplitGo_ne_nil cs [])
    · simp only [List.headD_cons]
      cases hp0 : markerAt p0 with
      | false => rfl
      | true =>
        exfalso
        have hjoin : p0 ++ ps.flatten = cs := by
          have := daySplitGo_flatten cs []
          rw [daySplit] at hsplit
          rw [hsplit] at this
          simpa using this
        rw [← hjoin, markerAt_append hp0 ps.flatten] at hm
        exact Bool.noConfusion hm

/-- No marker occurs at a strictly interior position of any piece. -/
theorem daySplitGo_no_interior (cs : List Char) : ∀ acc : List Char,
    (∀ j, 0 < j → j < acc.length → markerAt (acc.reverse.drop j ++ cs) = false) →
    ∀ p ∈ daySplitGo cs acc, ∀ j, 0 < j → j < p.length → markerAt (p.drop j) = false := by
  induction cs with
  | nil =>
    intro acc hin p hp j hj1 hj2
    simp only [daySplitGo, List.mem_singleton] at hp
    subst hp
    have := hin j hj1 (by simpa using hj2)
    rwa [List.append_nil] at this
  | cons c rest ih =>
    intro acc hin p hp j hj1 hj2
    simp only [daySplitGo] at hp
    split at hp
    · next hcut =>
      rcases List.mem_cons.mp hp with hp | hp
      · subst hp
        cases hq : markerAt (List.drop j acc.reverse) with
        | false => rfl
        | true =>
          exfalso
          have h2 := hin j hj1 (by simpa using hj2)
          rw [markerAt_append hq (c :: rest)] at h2
          exact Bool.noConfusion h2
      · refine ih [c] ?_ p hp j hj1 hj2
        intro j' hj1' hj2'
        simp only [List.length_singleton] at hj2'
        omega
    · next hcut =>
      refine ih (c :: acc) ?_ p hp j hj1 hj2
      intro j' hj1' hj2'
      simp only [List.length_cons] at hj2'
      simp only [List.reverse_cons]
      rcases Nat.lt_or_ge j' acc.length with hlt | hge
      · rw [List.drop_append_of_le_length (by simpa using Nat.le_of_lt hlt)]
        have := hin j' hj1' hlt
        simpa [List.append_assoc] using this
      · have hj' : j' = acc.length := by omega
        subst hj'
        rw [List.drop_append_of_le_length (by simp)]
        have hdrop : List.drop acc.length acc.reverse = [] := by
          rw [← List.length_reverse acc]
          exact List.drop_length _
        rw [hdrop]
        simpa using hcut

/-- When no marker matches at any position of `ch`, the scan consumes all of
`ch` and continues on `rest`. -/
theorem daySplitGo_consume (ch : List Char) : ∀ (rest acc : List Char),
    (∀ j, j < ch.length → markerAt (List.drop j ch ++ rest) = false) →
    daySplitGo (ch ++ rest) acc = daySplitGo rest (ch.reverse ++ acc) := by
  induction ch with
  | nil => intro rest acc _; simp
  | cons c ch' ih =>
    intro rest acc hin
    have h0 : markerAt (c :: (ch' ++ rest)) = false := by
      have := hin 0 (by simp)
      simpa using this
    rw [List.cons_append, daySplitGo, if_neg (by simp [h0])]
    rw [ih rest (c :: acc) ?_]
    · simp
    · intro j hj
      have := hin (j + 1) (by simpa using Nat.succ_lt_succ hj)
      simpa using this

/-- Well-formed chunk lists: every chunk starts with a day marker, and no
marker occurs at any interior position of a chunk, even reading across into
the following chunks. -/
def ChunksOK : List (List Char) → Prop
  | [] => True
  | ch :: rest =>
    markerAt ch = true ∧
    (∀ j, j < ch.length → 0 < j → markerAt (List.drop j ch ++ rest.flatten) = false) ∧
    ChunksOK rest

instance : DecidablePred ChunksOK := by
  intro chunks
  induction chunks with
  | nil => exact isTrue trivial
  | cons ch rest ih =>
    have hrest : Decidable (ChunksOK rest) := ih
    unfold ChunksOK
    infer_instance

theorem chunksOK_all_marker {chunks : List (List Char)} (h : ChunksOK chunks) :
    ∀ ch ∈ chunks, markerAt ch = true := by
  induction chunks with
  | nil => simp
  | cons ch rest ih =>
    intro x hx
    rcases List.mem_cons.mp hx with hx | hx
    · subst hx; exact h.1
    · exact ih h.2.2 x hx

/-- On a well-formed chunk list, the lookahead split recovers exactly the
chunks (preceded by the empty piece cut off before the leading marker). -/
theorem daySplitGo_chunks : ∀ chunks : List (List Char), ChunksOK chunks →
    chunks ≠ [] → ∀ acc : List Char,
    daySplitGo (chunks.flatten) acc = acc.reverse :: chunks := by
  intro chunks
  induction chunks with
  | nil => intro _ hne; exact absurd rfl hne
  | cons ch rest ih =>
    intro hok _ acc
    obtain ⟨hm, hin, hrest⟩ := hok
    obtain ⟨t, rfl⟩ := markerAt_head hm
    have hm2 : markerAt (('D' :: t) ++ rest.flatten) = true :=
      markerAt_append hm rest.flatten
    have hcons : daySplitGo (t ++ rest.flatten) ['D'] =
        daySplitGo rest.flatten (t.reverse ++ ['D']) := by
      refine daySplitGo_consume t rest.flatten ['D'] ?_
      intro j hj
      have := hin (j + 1) (by simpa using Nat.succ_lt_succ hj) (by omega)
      simpa using this
    simp only [List.flatten_cons]
    rw [List.cons_append, daySplitGo, if_pos (by simpa using hm2), hcons]
    cases rest with
    | nil =>
      simp only [List.flatten_nil, daySplitGo, List.reverse_append]
      simp
    | cons r rs =>
      rw [ih hrest (by simp) (t.reverse ++ ['D'])]
      simp

/-- A chunk that starts with a marker is not blank. -/
theorem pyStrip_marker_ne_nil {ch : List Char} (h : markerAt ch = true) :
    pyStrip ch ≠ [] := by
  obtain ⟨t, rfl⟩ := markerAt_head h
  intro hnil
  unfold pyStrip at hnil
  rw [List.reverse_eq_nil_iff, List.dropWhile_eq_nil_iff] at hnil
  have hD : ('D' :: t).dropWhile Char.isWhitespace = 'D' :: t := by
    rw [List.dropWhile_cons_of_neg (by decide)]
  rw [hD] at hnil
  have := hnil 'D' (by simp)
  exact absurd this (by decide)

theorem splitOnNL_ne_nil : ∀ cs : List Char, splitOnNL cs ≠ [] := by
  intro cs
  induction cs with
  | nil => simp [splitOnNL]
  | cons c rest ih =>
    rw [splitOnNL]
    split
    · simp
    · rcases h : splitOnNL rest with _ | ⟨l, ls⟩
      · exact absurd h ih
      · simp

/-- The first line of a chunk that starts with a marker starts with `D`. -/
theorem splitOnNL_marker_head {ch : List Char} (h : markerAt ch = true) :
    ∃ l, (splitOnNL ch).headD [] = 'D' :: l := by
  obtain ⟨t, rfl⟩ := markerAt_head h
  rw [splitOnNL, if_neg (by decide)]
  rcases hs : splitOnNL t with _ | ⟨l, ls⟩
  · exact ⟨[], rfl⟩
  · exact ⟨l, rfl⟩

/-! ### Lemmas about the section parser -/

theorem mem_flushQual {secs : List Section} {cur s : Section}
    (h : s ∈ flushQual secs cur) :
    s ∈ secs ∨ (s = cur ∧ (cur.header ≠ [] ∨ cur.points ≠ [])) := by
  unfold flushQual at h
  split at h
  · next hq =>
    rcases List.mem_append.mp h with h | h
    · exact Or.inl h
    · simp only [List.mem_singleton] at h
      exact Or.inr ⟨h, hq⟩
  · exact Or.inl h

/-- Each loop step either leaves the flushed sections unchanged or performs
the qualified flush of the current section. -/
theorem stepLine_sections (st : PState) (raw : List Char) :
    (stepLine st raw).sections = st.sections ∨
    (stepLine st raw).sections = flushQual st.sections st.cur := by
  unfold stepLine
  by_cases h1 : pyStrip raw = []
  · rw [if_pos h1]
    split <;> simp
  · rw [if_neg h1]
    by_cases h2 : isHeaderLine (pyStrip raw) = true
    · rw [if_pos h2]; right; rfl
    · rw [if_neg h2]
      by_cases h3 : isBulletStart (pyStrip raw) = true
      · rw [if_pos h3]
        simp only []
        split <;> simp
      · rw [if_neg h3]; left; rfl

theorem foldl_sections_qual (ls : List (List Char)) : ∀ st : PState,
    (∀ s ∈ st.sections, s.header ≠ [] ∨ s.points ≠ []) →
    ∀ s ∈ (ls.foldl stepLine st).sections, s.header ≠ [] ∨ s.points ≠ [] := by
  induction ls with
  | nil => intro st h; exact h
  | cons l ls ih =>
    intro st h
    refine ih (stepLine st l) ?_
    intro s hs
    rcases stepLine_sections st l with heq | heq
    · exact h s (heq ▸ hs)
    · rw [heq] at hs
      rcases mem_flushQual hs with hs | ⟨rfl, hq⟩
      · exact h s hs
      · exact hq

theorem isHeaderLine_iff (l : List Char) :
    isHeaderLine l = true ↔
      (l.contains ':' = true ∧
        ∀ c ∈ l.takeWhile (fun c => c ≠ ':'), c.isDigit = false) := by
  unfold isHeaderLine
  rw [Bool.and_eq_true, Bool.not_eq_true']
  constructor
  · rintro ⟨h1, h2⟩
    refine ⟨h1, ?_⟩
    intro c hc
    cases hd : c.isDigit with
    | false => rfl
    | true =>
      exfalso
      have : (l.takeWhile (fun c => c ≠ ':')).any Char.isDigit = true :=
        List.any_eq_true.mpr ⟨c, hc, hd⟩
      rw [this] at h2
      exact Bool.noConfusion h2
  · rintro ⟨h1, h2⟩
    refine ⟨h1, ?_⟩
    cases ha : (l.takeWhile (fun c => c ≠ ':')).any Char.isDigit with
    | false => rfl
    | true =>
      obtain ⟨c, hc, hd⟩ := List.any_eq_true.mp ha
      rw [h2 c hc] at hd
      exact Bool.noConfusion hd

theorem isHeaderLine_ne_nil {l : List Char} (h : isHeaderLine l = true) : l ≠ [] := by
  rintro rfl
  simp [isHeaderLine] at h

/-- A run of plain lines (non-blank, neither header nor bullet) is
accumulated, in order, into the pending info buffer. -/
theorem foldl_plain (ls : List (List Char)) : ∀ st : PState,
    (∀ l ∈ ls, pyStrip l = l ∧ l ≠ [] ∧ isHeaderLine l = false ∧ isBulletStart l = false) →
    ls.foldl stepLine st = ⟨st.sections, st.cur, st.buf ++ ls⟩ := by
  induction ls with
  | nil => intro st _; simp
  | cons l ls ih =>
    intro st h
    obtain ⟨h1, h2, h3, h4⟩ := h l (by simp)
    have hstep : stepLine st l = ⟨st.sections, st.cur, st.buf ++ [l]⟩ := by
      unfold stepLine
      simp only [h1]
      rw [if_neg h2, if_neg (by simp [h3]), if_neg (by simp [h4])]
    rw [List.foldl_cons, hstep, ih _ (fun x hx => h x (by simp [hx]))]
    simp

theorem splitOnNL_no_nl {l : List Char} (h : ('\n') ∉ l) : splitOnNL l = [l] := by
  induction l with
  | nil => rfl
  | cons c rest ih =>
    rw [splitOnNL, if_neg (fun hc => h (by simp [hc]))]
    rw [ih (fun hm => h (by simp [hm]))]

theorem splitOnNL_append_nl {l : List Char} (t : List Char) (h : ('\n') ∉ l) :
    splitOnNL (l ++ '\n' :: t) = l :: splitOnNL t := by
  induction l with
  | nil => rw [List.nil_append, splitOnNL, if_pos rfl]
  | cons c rest ih =>
    rw [List.cons_append, splitOnNL, if_neg (fun hc => h (by simp [hc]))]
    rw [ih (fun hm => h (by simp [hm]))]

/-- Splitting at newlines undoes the newline join of newline-free lines. -/
theorem splitOnNL_joinNL : ∀ ls : List (List Char), ls ≠ [] →
    (∀ l ∈ ls, ('\n') ∉ l) → splitOnNL (joinNL ls) = ls := by
  intro ls
  induction ls with
  | nil => intro h; exact absurd rfl h
  | cons l ls ih =>
    intro _ hnl
    cases ls with
    | nil => exact splitOnNL_no_nl (hnl l (by simp))
    | cons l2 ls2 =>
      rw [joinNL]
      rw [splitOnNL_append_nl _ (hnl l (by simp))]
      rw [ih (by simp) (fun x hx => hnl x (by simp [hx]))]

/-- Provenance of a stored bullet point: it is non-empty and arises from some
input line that is non-blank, not header-classified, starts with a bullet
marker, and whose marker-run strip cleans to the point. -/
def GoodPoint (ls : List (List Char)) (p : List Char) : Prop :=
  p ≠ [] ∧ ∃ l ∈ ls,
    pyStrip l ≠ [] ∧ isHeaderLine (pyStrip l) = false ∧
    isBulletStart (pyStrip l) = true ∧ p = cleanText (lstripBullet (pyStrip l))

/-- All points stored anywhere in the state have good provenance. -/
def StOK (ls : List (List Char)) (st : PState) : Prop :=
  (∀ s ∈ st.sections, ∀ p ∈ s.points, GoodPoint ls p) ∧
  (∀ p ∈ st.cur.points, GoodPoint ls p)

theorem stepLine_StOK {ls : List (List Char)} {st : PState} {l : List Char}
    (hst : StOK ls st) (hl : l ∈ ls) : StOK ls (stepLine st l) := by
  obtain ⟨hsec, hcur⟩ := hst
  unfold stepLine
  by_cases h1 : pyStrip l = []
  · rw [if_pos h1]
    split
    · exact ⟨hsec, hcur⟩
    · exact ⟨hsec, hcur⟩
  · rw [if_neg h1]
    by_cases h2 : isHeaderLine (pyStrip l) = true
    · rw [if_pos h2]
      refine ⟨?_, by simp⟩
      intro s hs p hp
      rcases mem_flushQual hs with hs | ⟨rfl, _⟩
      · exact hsec s hs p hp
      · exact hcur p hp
    · rw [if_neg h2]
      by_cases h3 : isBulletStart (pyStrip l) = true
      · rw [if_pos h3]
        simp only []
        split
        · next hp0 =>
          refine ⟨hsec, ?_⟩
          intro p hp
          rcases List.mem_append.mp hp with hp | hp
          · exact hcur p hp
          · simp only [List.mem_singleton] at hp
            subst hp
            exact ⟨hp0, l, hl, h1, (by simpa using h2), h3, rfl⟩
        · exact ⟨hsec, hcur⟩
      · rw [if_neg h3]
        exact ⟨hsec, hcur⟩

theorem foldl_StOK (ls2 : List (List Char)) : ∀ (ls : List (List Char)) (st : PState),
    StOK ls st → (∀ x ∈ ls2, x ∈ ls) → StOK ls (ls2.foldl stepLine st) := by
  induction ls2 with
  | nil => intro ls st h _; exact h
  | cons l ls2 ih =>
    intro ls st h hsub
    exact ih ls (stepLine st l) (stepLine_StOK h (hsub l (by simp)))
      (fun x hx => hsub x (by simp [hx]))

/-! ### Claims about the section parser -/

/-- C2: a non-blank line is treated as a section header exactly when it
contains a colon and the text before the first colon has no digit: in that
case the previous current section is flushed (only when it has a non-empty
header or non-empty points) and a new current section starts with this line
as its header; otherwise (in particular for clock-time lines such as
`10:30 Check-in`) the output list and the current header are untouched. -/
theorem claim2_header_rule (st : PState) (raw : List Char)
    (hnb : pyStrip raw ≠ []) :
    (((pyStrip raw).contains ':' = true ∧
        ∀ c ∈ (pyStrip raw).takeWhile (fun c => c ≠ ':'), c.isDigit = false) →
      stepLine st raw =
        ⟨if st.cur.header ≠ [] ∨ st.cur.points ≠ []
           then st.sections ++ [st.cur] else st.sections,
         ⟨pyStrip raw, [], []⟩, []⟩) ∧
    ((¬((pyStrip raw).contains ':' = true ∧
        ∀ c ∈ (pyStrip raw).takeWhile (fun c => c ≠ ':'), c.isDigit = false)) →
      (stepLine st raw).sections = st.sections ∧
      (stepLine st raw).cur.header = st.cur.header) := by
  constructor
  · intro hcond
    have hh : isHeaderLine (pyStrip raw) = true := (isHeaderLine_iff _).mpr hcond
    unfold stepLine
    rw [if_neg hnb, if_pos hh]
    rfl
  · intro hcond
    have hh : isHeaderLine (pyStrip raw) = false := by
      cases hl : isHeaderLine (pyStrip raw) with
      | false => rfl
      | true => exact absurd ((isHeaderLine_iff _).mp hl) hcond
    unfold stepLine
    rw [if_neg hnb, if_neg (by simp [hh])]
    by_cases h3 : isBulletStart (pyStrip raw) = true
    · rw [if_pos h3]
      simp only []
      split
      · exact ⟨rfl, rfl⟩
      · exact ⟨rfl, rfl⟩
    · rw [if_neg h3]
      exact ⟨rfl, rfl⟩

/-- Witness for C2 at the clock-time line of the claim: `10:30 Check-in` is
not treated as a header. -/
theorem claim2_header_rule_witness :
    (stepLine ⟨[], ⟨[], [], []⟩, []⟩ (("10:30 Check-in").data)).sections = [] ∧
    (stepLine ⟨[], ⟨[], [], []⟩, []⟩ (("10:30 Check-in").data)).cur.header = [] := by
  have h := claim2_header_rule ⟨[], ⟨[], [], []⟩, []⟩ (("10:30 Check-in").data) (by decide)
  exact h.2 (by decide)

/-- C5 counterexample: a blank line inside a section makes a later run of
plain lines overwrite (not extend) the info field, so the info field is not
the join of all plain lines of the section. -/
theorem claim5_info_cex :
    parseSection (("Hotel:\nnear station\n\nlate checkout").data) =
      [⟨("Hotel:").data, [], ("late checkout").data⟩] ∧
    ("late checkout").data ≠ ("near station late checkout").data := by decide

/-- C5 (amended): the info field holds the space-join of the last flushed run
of plain lines; in particular, when the plain lines of a section form a
single run with no interior blank line and no following header, the info
field is the space-join of exactly those lines, in order. -/
theorem claim5_info_last_run (h : List Char) (ls : List (List Char))
    (hh1 : pyStrip h = h) (hh2 : isHeaderLine h = true)
    (hnl : ∀ l ∈ h :: ls, ('\n') ∉ l)
    (hls : ∀ l ∈ ls, pyStrip l = l ∧ l ≠ [] ∧ isHeaderLine l = false ∧ isBulletStart l = false) :
    parseSection (joinNL (h :: ls)) = [⟨h, [], joinSpace ls⟩] := by
  unfold parseSection
  rw [splitOnNL_joinNL (h :: ls) (by simp) hnl]
  rw [List.foldl_cons]
  have hstep : stepLine ⟨[], ⟨[], [], []⟩, []⟩ h = ⟨[], ⟨h, [], []⟩, []⟩ := by
    unfold stepLine
    simp only [hh1]
    rw [if_neg (isHeaderLine_ne_nil hh2), if_pos hh2]
    rfl
  rw [hstep, foldl_plain ls _ hls]
  simp only []
  cases ls with
  | nil =>
    rw [if_neg (by simp)]
    unfold flushQual
    rw [if_pos (Or.inl (isHeaderLine_ne_nil hh2))]
    simp [joinSpace]
  | cons l2 ls2 =>
    rw [if_pos (by simp)]
    unfold flushQual
    rw [if_pos (Or.inl (isHeaderLine_ne_nil hh2))]
    simp

/-- Witness for the amended C5 on a single-run section. -/
theorem claim5_info_last_run_witness :
    parseSection (joinNL ((("Evening:").data) :: [("Dinner at eight").data])) =
      [⟨("Evening:").data, [], joinSpace [("Dinner at eight").data]⟩] :=
  claim5_info_last_run (("Evening:").data) [("Dinner at eight").data]
    (by decide) (by decide) (by decide) (by decide)

/-- C6: every section emitted by `parse_section` has a non-empty header or a
non-empty points list; info-only clusters are never emitted standalone. -/
theorem claim6_sections_qualify (content : List Char) (s : Section)
    (hs : s ∈ parseSection content) : s.header ≠ [] ∨ s.points ≠ [] := by
  have hinv := foldl_sections_qual (splitOnNL content) ⟨[], ⟨[], [], []⟩, []⟩ (by simp)
  unfold parseSection at hs
  rcases mem_flushQual hs with h | ⟨rfl, hq⟩
  · split at h
    · exact hinv s h
    · exact hinv s h
  · exact hq

/-- Witness for C6. -/
theorem claim6_sections_qualify_witness :
    (Section.mk [] [("x").data] []).header ≠ [] ∨
    (Section.mk [] [("x").data] []).points ≠ [] :=
  claim6_sections_qualify (("- x").data) (Section.mk [] [("x").data] []) (by decide)

/-- C9 counterexample: `lstrip` removes the whole leading run of marker and
space characters, not a single marker, so a line starting with two dashes
stores `museum pass` and not `- museum pass`. -/
theorem claim9_bullet_cex :
    parseSection (("- - museum pass").data) = [⟨[], [("museum pass").data], []⟩] ∧
    ("museum pass").data ≠ ("- museum pass").data := by decide

/-- C9 (amended): every stored point is non-empty and is obtained from some
non-blank, non-header input line that starts with a bullet marker, by
stripping the maximal leading run of marker and space characters and then
cleaning; empty results are never stored. -/
theorem claim9_bullet_points (content : List Char) (s : Section) (p : List Char)
    (hs : s ∈ parseSection content) (hp : p ∈ s.points) :
    p ≠ [] ∧ ∃ l ∈ splitOnNL content,
      pyStrip l ≠ [] ∧ isHeaderLine (pyStrip l) = false ∧
      isBulletStart (pyStrip l) = true ∧ p = cleanText (lstripBullet (pyStrip l)) := by
  have hst : StOK (splitOnNL content)
      ((splitOnNL content).foldl stepLine ⟨[], ⟨[], [], []⟩, []⟩) :=
    foldl_StOK _ _ _ ⟨by simp, by simp⟩ (fun x hx => hx)
  unfold parseSection at hs
  rcases mem_flushQual hs with h | ⟨rfl, _⟩
  · split at h
    · exact hst.1 s h p hp
    · exact hst.1 s h p hp
  · split at hp
    · exact hst.2 p hp
    · exact hst.2 p hp

/-- Witness for the amended C9. -/
theorem claim9_bullet_points_witness :
    ("museum").data ≠ [] ∧ ∃ l ∈ splitOnNL (("- museum").data),
      pyStrip l ≠ [] ∧ isHeaderLine (pyStrip l) = false ∧
      isBulletStart (pyStrip l) = true ∧
      ("museum").data = cleanText (lstripBullet (pyStrip l)) :=
  claim9_bullet_points (("- museum").data) (Section.mk [] [("museum").data] [])
    (("museum").data) (by decide) (by decide)

/-! ### Claims about the segmentation pass -/

theorem daySplit_no_marker {cs : List Char}
    (h : ∀ j, j < cs.length → markerAt (List.drop j cs) = false) :
    daySplit cs = [cs] := by
  have h2 := daySplitGo_consume cs [] [] (fun j hj => by simpa using h j hj)
  rw [List.append_nil] at h2
  rw [daySplit, h2]
  simp [daySplitGo]

theorem filterMap_marker_headers : ∀ chs : List (List Char),
    (∀ ch ∈ chs, markerAt ch = true) →
    (chs.filterMap mkDayBlock).map DayBlock.header
      = chs.map (fun ch => (splitOnNL ch).headD []) := by
  intro chs
  induction chs with
  | nil => intro _; rfl
  | cons ch rest ih =>
    intro h
    have hm := h ch (by simp)
    have hne := pyStrip_marker_ne_nil hm
    have hsome : mkDayBlock ch =
        some ⟨(splitOnNL ch).headD [], parseSection (joinNL (splitOnNL ch).tail)⟩ := by
      unfold mkDayBlock
      rw [if_neg hne, if_pos hm]
    rw [List.filterMap_cons, hsome]
    simp only [List.map_cons]
    rw [ih (fun x hx => h x (by simp [hx]))]

/-- C1 counterexample: a plan text with exactly one day-marker line but with
prose before it produces two `DayBlock`s, not one. -/
theorem claim1_exact_count_cex :
    markerLineCount (("intro\nDay 1: beach").data) = 1 ∧
    (segmentTrip (("intro\nDay 1: beach").data)).length = 2 := by decide

/-- C1 (amended): when the plan text is a concatenation of chunks, each
starting with a day marker and containing no other marker occurrence (so
markers appear only at chunk starts and nothing precedes the first marker),
segmentation emits exactly one `DayBlock` per chunk, and each header is
verbatim the first line of its chunk. -/
theorem claim1_marker_chunks (chunks : List (List Char))
    (hok : ChunksOK chunks) (hne : chunks ≠ []) :
    (segmentTrip chunks.flatten).map DayBlock.header
        = chunks.map (fun ch => (splitOnNL ch).headD []) ∧
    (segmentTrip chunks.flatten).length = chunks.length := by
  have hsplit : daySplit chunks.flatten = [] :: chunks :=
    daySplitGo_chunks chunks hok hne []
  have hall := chunksOK_all_marker hok
  have hmap : (segmentTrip chunks.flatten).map DayBlock.header
      = chunks.map (fun ch => (splitOnNL ch).headD []) := by
    rw [segmentTrip, hsplit, List.filterMap_cons]
    rw [show mkDayBlock [] = none from rfl]
    exact filterMap_marker_headers chunks hall
  refine ⟨hmap, ?_⟩
  have := congrArg List.length hmap
  simpa using this

/-- Witness for the amended C1 on a two-chunk plan. -/
theorem claim1_marker_chunks_witness :
    (segmentTrip ([("Day 1: A\n- x\n").data, ("Day 2: B").data]).flatten).map DayBlock.header
        = ([("Day 1: A\n- x\n").data, ("Day 2: B").data]).map
            (fun ch => (splitOnNL ch).headD []) ∧
    (segmentTrip ([("Day 1: A\n- x\n").data, ("Day 2: B").data]).flatten).length = 2 :=
  claim1_marker_chunks [("Day 1: A\n- x\n").data, ("Day 2: B").data]
    (by decide) (by decide)

/-- C3 counterexample: the split regex is not anchored at line starts and is
not case-insensitive: a mid-line occurrence of `Day 2:` does create a
boundary, and a lowercase `day 1:` line does not. -/
theorem claim3_boundary_cex :
    daySplit (("b Day 2: c").data) = [("b ").data, ("Day 2: c").data] ∧
    daySplit (("day 1: x").data) = [("day 1: x").data] := by decide

/-- C3 (amended): chunk boundaries fall exactly at the occurrences of
`Day <digits>:` or `DAY <digits>:` (these two exact capitalizations),
anywhere in the text including mid-line: the chunks concatenate back to the
text, every chunk after the first starts with a marker occurrence (the marker
stays attached to the chunk it introduces), no marker occurs at a strictly
interior position of any chunk, and the first chunk does not start with a
marker. -/
theorem claim3_boundaries (cs : List Char) :
    (daySplit cs).flatten = cs ∧
    (∀ p ∈ (daySplit cs).tail, markerAt p = true) ∧
    (∀ p ∈ daySplit cs, ∀ j, 0 < j → j < p.length → markerAt (List.drop j p) = false) ∧
    markerAt ((daySplit cs).headD []) = false := by
  refine ⟨by simpa using daySplitGo_flatten cs [], daySplit_tail_marker cs, ?_,
    daySplit_head_not_marker cs⟩
  intro p hp j h1 h2
  refine daySplitGo_no_interior cs [] ?_ p hp j h1 h2
  intro j' _ hj'
  simp at hj'

/-- Witness for the amended C3 on a plan with a mid-line marker. -/
theorem claim3_boundaries_witness :
    (daySplit (("b Day 2: c").data)).flatten = ("b Day 2: c").data ∧
    (∀ p ∈ (daySplit (("b Day 2: c").data)).tail, markerAt p = true) ∧
    (∀ p ∈ daySplit (("b Day 2: c").data), ∀ j, 0 < j → j < p.length →
      markerAt (List.drop j p) = false) ∧
    markerAt ((daySplit (("b Day 2: c").data)).headD []) = false :=
  claim3_boundaries (("b Day 2: c").data)

/-- C4 counterexample: the empty plan text contains zero day-marker lines,
yet segmentation yields zero `DayBlock`s (the blank chunk is skipped), not
one block labeled Trip Overview. -/
theorem claim4_empty_cex :
    markerLineCount [] = 0 ∧ segmentTrip [] = [] := by decide

/-- C4 (amended): a plan text that is not entirely whitespace and contains no
day-marker occurrence at any position segments into exactly one `DayBlock`,
labeled Trip Overview, whose body is the whole text. -/
theorem claim4_overview_single (cs : List Char) (h1 : pyStrip cs ≠ [])
    (h2 : ∀ j, j < cs.length → markerAt (List.drop j cs) = false) :
    segmentTrip cs = [⟨("Trip Overview").data, parseSection cs⟩] := by
  rw [segmentTrip, daySplit_no_marker h2]
  have hm : markerAt cs = false := by
    cases cs with
    | nil => rfl
    | cons c rest => simpa using h2 0 (by simp)
  rw [List.filterMap_cons]
  unfold mkDayBlock
  rw [if_neg h1, if_neg (by simp [hm])]
  rfl

/-- Witness for the amended C4. -/
theorem claim4_overview_single_witness :
    segmentTrip (("hello\nworld").data) =
      [⟨("Trip Overview").data, parseSection (("hello\nworld").data)⟩] :=
  claim4_overview_single (("hello\nworld").data) (by decide)
    (by decide)

theorem filter_tail_le_one {α : Type} (l : List α) (p : α → Bool)
    (h : ∀ x ∈ l.tail, p x = false) : (l.filter p).length ≤ 1 := by
  cases l with
  | nil => simp
  | cons a l =>
    rw [List.filter_cons]
    have hnil : l.filter p = [] := by
      rw [List.filter_eq_nil_iff]
      intro x hx
      simp [h x hx]
    split <;> simp [hnil]

/-- Blocks made from marker chunks never carry the fallback header. -/
theorem mkDayBlock_marker_header {p : List Char} {b : DayBlock}
    (hm : markerAt p = true) (hb : mkDayBlock p = some b) :
    b.header ≠ ("Trip Overview").data := by
  unfold mkDayBlock at hb
  rw [if_neg (pyStrip_marker_ne_nil hm), if_pos hm] at hb
  obtain ⟨l, hl⟩ := splitOnNL_marker_head hm
  intro hto
  rw [← Option.some_inj.mp hb] at hto
  simp only [hl] at hto
  have := List.head_eq_of_cons_eq hto
  exact absurd this (by decide)

/-- C10: at most one `DayBlock` has the fallback header Trip Overview, and
only the first emitted block can carry it: every chunk after the first starts
with a day marker, so every block after the first is a marker block. -/
theorem claim10_overview_first (cs : List Char) :
    (∀ b ∈ (segmentTrip cs).tail, b.header ≠ ("Trip Overview").data) ∧
    ((segmentTrip cs).filter
        (fun b => decide (b.header = ("Trip Overview").data))).length ≤ 1 := by
  have htail : ∀ b ∈ (segmentTrip cs).tail, b.header ≠ ("Trip Overview").data := by
    have hmem : ∀ b ∈ ((daySplit cs).tail).filterMap mkDayBlock,
        b.header ≠ ("Trip Overview").data := by
      intro b hb
      obtain ⟨p, hp, hsome⟩ := List.mem_filterMap.mp hb
      exact mkDayBlock_marker_header (daySplit_tail_marker cs p hp) hsome
    rcases hsplit : daySplit cs with _ | ⟨p0, ps⟩
    · exact absurd hsplit (daySplitGo_ne_nil cs [])
    · have hps : ∀ b ∈ ps.filterMap mkDayBlock, b.header ≠ ("Trip Overview").data := by
        intro b hb
        refine hmem b ?_
        rw [hsplit]
        exact hb
      rw [segmentTrip, hsplit, List.filterMap_cons]
      cases hb0 : mkDayBlock p0 with
      | none =>
        intro b hb
        exact hps b (List.mem_of_mem_tail hb)
      | some b0 =>
        intro b hb
        simp only [List.tail_cons] at hb
        exact hps b hb
  refine ⟨htail, ?_⟩
  refine filter_tail_le_one _ _ ?_
  intro b hb
  simp [htail b hb]

/-- Witness for C10 on a plan with a leading Trip Overview chunk. -/
theorem claim10_overview_first_witness :
    (∀ b ∈ (segmentTrip (("x\nDay 1: y").data)).tail,
      b.header ≠ ("Trip Overview").data) ∧
    ((segmentTrip (("x\nDay 1: y").data)).filter
        (fun b => decide (b.header = ("Trip Overview").data))).length ≤ 1 :=
  claim10_overview_first (("x\nDay 1: y").data)

/-! ### Claims about the document builder -/

/-- C7: for every input, the story begins with the title paragraph, the
subtitle paragraph, the summary table, the post-table spacer and the
separator (rule plus spacer), in this order, before any day content; the
remainder is exactly the day content. -/
theorem claim7_front_matter (p l d : List Char) (s e : Int) :
    ∃ rest, mkStory p l d s e =
      Block.para (("Travel Itinerary\n").data ++ l ++ (" to ").data ++ d)
          (("CustomTitle").data)
        :: Block.para (("Journey Dates: ").data ++ (toString s).data
              ++ (" - ").data ++ (toString e).data)
          (("CustomSubtitle").data)
        :: Block.ovTable (ovRows l d s e)
        :: Block.spacer 1 20
        :: Block.sepLine 450
        :: Block.spacer 1 10
        :: rest
      ∧ rest = ((segmentTrip p).map dayStory).flatten :=
  ⟨((segmentTrip p).map dayStory).flatten, rfl, rfl⟩

/-- C8: the duration cell of the summary table inside the story always shows
the inclusive day count `end - start + 1` followed by " days"; a two-day
difference displays `3 days` and equal dates display `1 days`. -/
theorem claim8_duration_formula (p l d : List Char) (s e : Int) :
    (mkStory p l d s e).get? 2 = some (Block.ovTable (ovRows l d s e)) ∧
    (ovRows l d s e).get? 5 =
      some ((("Duration").data, (toString (e - s + 1)).data ++ (" days").data)) ∧
    (e - s = 2 → (ovRows l d s e).get? 5 =
      some ((("Duration").data, ("3 days").data))) ∧
    (e = s → (ovRows l d s e).get? 5 =
      some ((("Duration").data, ("1 days").data))) := by
  refine ⟨rfl, rfl, ?_, ?_⟩
  · intro h
    have h3 : e - s + 1 = 3 := by omega
    simp only [ovRows, h3]
    rfl
  · intro h
    have h1 : e - s + 1 = 1 := by omega
    simp only [ovRows, h1]
    rfl

/-- Witness for C8 with a two-day difference (the 2024-01-01 to 2024-01-03
example of the claim: ordinals differing by two). -/
theorem claim8_duration_formula_witness :
    (ovRows (("A").data) (("B").data) 0 2).get? 5 =
      some ((("Duration").data, ("3 days").data)) :=
  (claim8_duration_formula [] (("A").data) (("B").data) 0 2).2.2.1 (by norm_num)

end TripAI
